import Mathlib

/-!
Shallow embedding of the ccstat session-windowing and projection engine.

Times are modelled as natural numbers of milliseconds since the Unix epoch
(JavaScript `Date.getTime()` values of log timestamps, which are
non-negative in this program).  Differences of timestamps are taken in `ℤ`,
mirroring JavaScript number subtraction of `getTime()` values.  Monetary
amounts and derived rates are modelled as `ℚ`.

The definitions follow the source files:
  * `identifySessionBlocks`, `createBlock`, `createGapBlock`, `floorToHour`
    from the gap-emitting engine (the ccusage copy, `_session-blocks.ts`);
    the copy in `session-blocks-simple.ts` is identical except that it
    omits the gap-block emission.
  * `calculateBurnRate`, `projectBlockUsage`, `getTotalTokens` from
    `session-blocks-simple.ts`.
  * `findContextSessionByPath` and the per-file aggregation scan of
    `getContextSessionData` from the standalone context data reader.
-/

/-- One loaded usage record (`LoadedUsageEntry` of `data-loader-simple.ts`).
Only the fields read by the windowing engine are modelled; `messageId`,
`requestId`, `sessionId` and `projectName` are not consulted by any claim.
A missing `costUSD` (`entry.costUSD ?? 0`) is modelled with `Option`. -/
structure LoadedUsageEntry where
  timestamp : Nat
  inputTokens : Nat
  outputTokens : Nat
  cacheCreationTokens : Nat
  cacheReadTokens : Nat
  costUSD : Option ℚ
  model : String
deriving Repr, DecidableEq

/-- Aggregated token counts of a block (`TokenCounts`). -/
structure TokenCounts where
  inputTokens : Nat
  outputTokens : Nat
  cacheCreationInputTokens : Nat
  cacheReadInputTokens : Nat
deriving Repr, DecidableEq

/-- `getTotalTokens` of `data-loader-simple.ts`: sum of the four kinds. -/
def getTotalTokens (tokenCounts : TokenCounts) : Nat :=
  tokenCounts.inputTokens + tokenCounts.outputTokens +
    tokenCounts.cacheCreationInputTokens + tokenCounts.cacheReadInputTokens

/-- A session block (`SessionBlock`).  `id` serializes the start instant;
ISO-8601 rendering is modelled by the decimal millisecond value, which is
an injective serialization just as `toISOString` is.  `actualEndTime` is
optional because gap blocks are created without it. -/
structure SessionBlock where
  id : String
  startTime : Nat
  endTime : Nat
  actualEndTime : Option Nat
  isActive : Bool
  isGap : Bool
  entries : List LoadedUsageEntry
  tokenCounts : TokenCounts
  costUSD : ℚ
  models : List String
deriving Repr, DecidableEq

/-- `BurnRate` of `session-blocks-simple.ts`. -/
structure BurnRate where
  tokensPerMinute : ℚ
  tokensPerMinuteForIndicator : ℚ
  costPerHour : ℚ
deriving Repr, DecidableEq

/-- `ProjectedUsage` of `session-blocks-simple.ts`. -/
structure ProjectedUsage where
  totalTokens : ℚ
  totalCost : ℚ
  remainingMinutes : ℚ
deriving Repr, DecidableEq

/-- `floorToHour`: `setUTCMinutes(0, 0, 0)` zeroes the minutes, seconds and
milliseconds of a UTC instant, i.e. floors it to its UTC hour. -/
def floorToHour (timestamp : Nat) : Nat :=
  timestamp / (60 * 60 * 1000) * (60 * 60 * 1000)

/-- `uniq` (es-toolkit) / `new Set` spread: first-occurrence deduplication. -/
def uniqAux (seen : List String) : List String → List String
  | [] => []
  | x :: xs => if x ∈ seen then uniqAux seen xs else x :: uniqAux (x :: seen) xs

/-- First-occurrence deduplication of the model list. -/
def uniq (l : List String) : List String := uniqAux [] l

/-- `createBlock`: closes a block over `entries`, aggregating token counts,
cost and models, and computing `isActive` from `now`. -/
def createBlock (startTime : Nat) (entries : List LoadedUsageEntry) (now : Nat)
    (sessionDurationMs : Nat) : SessionBlock :=
  let endTime := startTime + sessionDurationMs
  let actualEndTime : Nat := match entries.getLast? with
    | some lastEntry => lastEntry.timestamp
    | none => startTime
  let isActive : Bool :=
    decide ((now : Int) - (actualEndTime : Int) < (sessionDurationMs : Int)) &&
      decide (now < endTime)
  { id := toString startTime
    startTime := startTime
    endTime := endTime
    actualEndTime := some actualEndTime
    isActive := isActive
    isGap := false
    entries := entries
    tokenCounts :=
      { inputTokens := (entries.map (·.inputTokens)).sum
        outputTokens := (entries.map (·.outputTokens)).sum
        cacheCreationInputTokens := (entries.map (·.cacheCreationTokens)).sum
        cacheReadInputTokens := (entries.map (·.cacheReadTokens)).sum }
    costUSD := (entries.map (fun e => e.costUSD.getD 0)).sum
    models := uniq ((entries.filter (fun e => e.model ≠ "")).map (·.model)) }

/-- `createGapBlock`: a synthetic block for a silence strictly longer than
the session duration, spanning from `lastActivityTime + sessionDurationMs`
to `nextActivityTime`; `null` when the gap is not strictly longer. -/
def createGapBlock (lastActivityTime nextActivityTime : Nat)
    (sessionDurationMs : Nat) : Option SessionBlock :=
  let gapDuration : Int := (nextActivityTime : Int) - (lastActivityTime : Int)
  if gapDuration ≤ (sessionDurationMs : Int) then none
  else
    some
      { id := "gap-" ++ toString (lastActivityTime + sessionDurationMs)
        startTime := lastActivityTime + sessionDurationMs
        endTime := nextActivityTime
        actualEndTime := none
        isActive := false
        isGap := true
        entries := []
        tokenCounts :=
          { inputTokens := 0, outputTokens := 0
            cacheCreationInputTokens := 0, cacheReadInputTokens := 0 }
        costUSD := 0
        models := [] }

/-- Comparator of the engine's sort: ascending timestamps.  JavaScript's
`Array.prototype.sort` with `(a, b) => a.timestamp - b.timestamp` is a
stable ascending sort; it is modelled with insertion sort. -/
def entryLE (a b : LoadedUsageEntry) : Prop := a.timestamp ≤ b.timestamp

instance : DecidableRel entryLE := fun a b => Nat.decLe a.timestamp b.timestamp

instance : IsTotal LoadedUsageEntry entryLE :=
  ⟨fun a b => Nat.le_total a.timestamp b.timestamp⟩

instance : IsTrans LoadedUsageEntry entryLE :=
  ⟨fun _ _ _ h h' => Nat.le_trans h h'⟩

/-- The engine's timestamp sort of the input records. -/
def sortByTs (entries : List LoadedUsageEntry) : List LoadedUsageEntry :=
  entries.insertionSort entryLE

/-- The walk of `identifySessionBlocks` over the sorted records, carrying
the open block (`blockStart`, `acc`).  The `acc.getLast?` match mirrors the
`lastEntry == null → continue` guard of the source, and the final
`acc.isEmpty` test mirrors the `currentBlockEntries.length > 0` check when
the last block is closed. -/
def blocksLoop (durMs now : Nat) (blockStart : Nat)
    (acc : List LoadedUsageEntry) : List LoadedUsageEntry → List SessionBlock
  | [] => if acc.isEmpty then [] else [createBlock blockStart acc now durMs]
  | e :: rest =>
    match acc.getLast? with
    | none => blocksLoop durMs now blockStart acc rest
    | some lastEntry =>
      let timeSinceBlockStart : Int := (e.timestamp : Int) - (blockStart : Int)
      let timeSinceLastEntry : Int :=
        (e.timestamp : Int) - (lastEntry.timestamp : Int)
      if timeSinceBlockStart > (durMs : Int) ∨ timeSinceLastEntry > (durMs : Int)
      then
        let closed := createBlock blockStart acc now durMs
        let gaps :=
          if timeSinceLastEntry > (durMs : Int) then
            match createGapBlock lastEntry.timestamp e.timestamp durMs with
            | some gapBlock => [gapBlock]
            | none => []
          else []
        closed :: gaps ++ blocksLoop durMs now (floorToHour e.timestamp) [e] rest
      else blocksLoop durMs now blockStart (acc ++ [e]) rest

/-- `identifySessionBlocks`: sorts the records and walks them, closing the
open block (and possibly emitting a gap block) whenever the time since the
block start or the time since the last record strictly exceeds the window
duration.  The ambient `new Date()` is the explicit parameter `now`. -/
def identifySessionBlocks (now : Nat) (entries : List LoadedUsageEntry)
    (sessionDurationHours : Nat := 5) : List SessionBlock :=
  if entries.isEmpty then []
  else
    let sessionDurationMs := sessionDurationHours * 60 * 60 * 1000
    match sortByTs entries with
    | [] => []
    | e :: rest =>
        blocksLoop sessionDurationMs now (floorToHour e.timestamp) [e] rest

/-- Elapsed minutes between a block's first and last entry (the
`durationMinutes` of `calculateBurnRate`); `0` for an empty block. -/
def blockElapsedMinutes (block : SessionBlock) : ℚ :=
  match block.entries.head?, block.entries.getLast? with
  | some firstEntry, some lastEntry =>
      ((lastEntry.timestamp : ℚ) - (firstEntry.timestamp : ℚ)) / (1000 * 60)
  | _, _ => 0

/-- `calculateBurnRate` of `session-blocks-simple.ts`. -/
def calculateBurnRate (block : SessionBlock) : Option BurnRate :=
  if block.entries.isEmpty || block.isGap then none
  else
    match block.entries.head?, block.entries.getLast? with
    | some firstEntry, some lastEntry =>
      let durationMinutes : ℚ :=
        ((lastEntry.timestamp : ℚ) - (firstEntry.timestamp : ℚ)) / (1000 * 60)
      if durationMinutes ≤ 0 then none
      else
        let totalTokens := getTotalTokens block.tokenCounts
        let nonCacheTokens :=
          block.tokenCounts.inputTokens + block.tokenCounts.outputTokens
        some
          { tokensPerMinute := (totalTokens : ℚ) / durationMinutes
            tokensPerMinuteForIndicator := (nonCacheTokens : ℚ) / durationMinutes
            costPerHour := block.costUSD / durationMinutes * 60 }
    | _, _ => none

/-- `projectBlockUsage` of `session-blocks-simple.ts`; the ambient
`new Date()` is the explicit parameter `now`. -/
def projectBlockUsage (now : Nat) (block : SessionBlock) :
    Option ProjectedUsage :=
  if !block.isActive || block.isGap then none
  else
    match calculateBurnRate block with
    | none => none
    | some burnRate =>
      let remainingTime : ℚ := (block.endTime : ℚ) - (now : ℚ)
      let remainingMinutes : ℚ := max 0 (remainingTime / (1000 * 60))
      let currentTokens := getTotalTokens block.tokenCounts
      some
        { totalTokens :=
            (currentTokens : ℚ) + burnRate.tokensPerMinute * remainingMinutes
          totalCost :=
            block.costUSD + burnRate.costPerHour * (remainingMinutes / 60)
          remainingMinutes := remainingMinutes }

/-- One record of a context log line (`ContextUsageData` of the standalone
context data reader): the parsed timestamp and the two usage fields the
scan reads. -/
structure ContextUsageRecord where
  timestamp : Nat
  cache_read_input_tokens : Nat
  input_tokens : Nat
deriving Repr, DecidableEq

/-- The mutable scan state of `getContextSessionData`'s inner loop:
`cacheReadTokens`, `inputTokens` and `mostRecentTimestamp` start at
`0`, `0` and `new Date(0)`. -/
structure ContextScanState where
  cacheReadTokens : Nat
  inputTokens : Nat
  mostRecentTimestamp : Nat
deriving Repr, DecidableEq

/-- One iteration of the scan of `getContextSessionData`: a record with a
positive `cache_read_input_tokens` and a timestamp at or after the most
recent marker overwrites `cacheReadTokens` and advances the marker;
`input_tokens` is always summed. -/
def contextScanStep (st : ContextScanState) (r : ContextUsageRecord) :
    ContextScanState :=
  let st1 :=
    if r.cache_read_input_tokens > 0 ∧ st.mostRecentTimestamp ≤ r.timestamp
    then { st with
            cacheReadTokens := r.cache_read_input_tokens
            mostRecentTimestamp := r.timestamp }
    else st
  { st1 with inputTokens := st1.inputTokens + r.input_tokens }

/-- The per-file aggregation of `getContextSessionData` (and the identical
scan of `aggregateSessionData` in `context-calculator.ts`): a fold of the
parsed records of one file, in file order, from the zero state. -/
def getContextSessionData (records : List ContextUsageRecord) :
    ContextScanState :=
  records.foldl contextScanStep ⟨0, 0, 0⟩

/-- One step of the spec-level selection: keep the record with the greatest
timestamp among those whose `cache_read_input_tokens` is positive, a
later-scanned record winning ties. -/
def latestPositiveStep (acc : Option ContextUsageRecord)
    (r : ContextUsageRecord) : Option ContextUsageRecord :=
  match acc with
  | none => if r.cache_read_input_tokens > 0 then some r else none
  | some b =>
    if r.cache_read_input_tokens > 0 ∧ b.timestamp ≤ r.timestamp
    then some r else some b

/-- Spec-level selection for the context scan: the record with the greatest
timestamp among those whose `cache_read_input_tokens` is positive, a
later-scanned record winning ties. -/
def latestPositiveCacheRead (records : List ContextUsageRecord) :
    Option ContextUsageRecord :=
  records.foldl latestPositiveStep none

/-- A context session as read by the standalone context data reader. -/
structure ContextSessionData where
  sessionId : String
  cacheReadTokens : Nat
  inputTokens : Nat
  mostRecentTimestamp : Nat
deriving Repr, DecidableEq

/-- JavaScript `"…".split("/")` on the character list of a path. -/
def splitChars : List Char → List (List Char)
  | [] => [[]]
  | c :: rest =>
    let r := splitChars rest
    if c = '/' then [] :: r
    else
      match r with
      | [] => [[c]]
      | h :: t => (c :: h) :: t

/-- JavaScript `array.join("/")` on character lists. -/
def joinChars : List (List Char) → List Char
  | [] => []
  | [p] => p
  | p :: ps => p ++ '/' :: joinChars ps

/-- JavaScript `replace(/\./g, "-")`: every dot becomes a hyphen. -/
def normalizeProjName (s : List Char) : List Char :=
  s.map (fun c => if c = '.' then '-' else c)

/-- `pattern` starts the text (character-list `startsWith`). -/
def startsWithChars : List Char → List Char → Bool
  | [], _ => true
  | _ :: _, [] => false
  | a :: as, b :: bs => a = b && startsWithChars as bs

/-- JavaScript `text.includes(pattern)`: substring containment. -/
def hasSubstringChars (pat : List Char) : List Char → Bool
  | [] => pat.isEmpty
  | c :: rest => startsWithChars pat (c :: rest) || hasSubstringChars pat rest

/-- The session matcher of `findContextSessionByPath`:
`s.sessionId && s.sessionId.includes(normalizedProjName)` (an empty
`sessionId` is falsy and never matches). -/
def sessionMatches (normalized : List Char) (s : ContextSessionData) : Bool :=
  !s.sessionId.isEmpty && hasSubstringChars normalized s.sessionId.data

/-- The walk of `findContextSessionByPath`: for `i` from the segment count
down to `1`, re-join the first `i` segments, re-split, pop the final
component, normalize it, and return the first session it matches. -/
def findLoop (sessions : List ContextSessionData)
    (pathParts : List (List Char)) : Nat → Option ContextSessionData
  | 0 => none
  | i + 1 =>
    let testPath := joinChars (pathParts.take (i + 1))
    let testProjName := (splitChars testPath).getLastD []
    let normalizedProjName := normalizeProjName testProjName
    match sessions.find? (sessionMatches normalizedProjName) with
    | some s => some s
    | none => findLoop sessions pathParts i

/-- `findContextSessionByPath` of the standalone context data reader. -/
def findContextSessionByPath (sessions : List ContextSessionData)
    (currentPath : String) : Option ContextSessionData :=
  let pathParts := splitChars currentPath.data
  findLoop sessions pathParts pathParts.length

/-- Spec-level reformulation of the resolver: try the normalized candidate
names from the deepest path prefix toward the root and return the first
session any of them matches. -/
def firstMatch (sessions : List ContextSessionData) :
    List (List Char) → Option ContextSessionData
  | [] => none
  | c :: cs =>
    match sessions.find? (sessionMatches (normalizeProjName c)) with
    | some s => some s
    | none => firstMatch sessions cs

/-- The variant engine of the redundancy claim: identical to
`identifySessionBlocks` except that the block-split condition tests only
the time since the block start (the time-since-last-record disjunct is
dropped; gap emission is unchanged). -/
def blocksLoopStartOnly (durMs now : Nat) (blockStart : Nat)
    (acc : List LoadedUsageEntry) : List LoadedUsageEntry → List SessionBlock
  | [] => if acc.isEmpty then [] else [createBlock blockStart acc now durMs]
  | e :: rest =>
    match acc.getLast? with
    | none => blocksLoopStartOnly durMs now blockStart acc rest
    | some lastEntry =>
      let timeSinceBlockStart : Int := (e.timestamp : Int) - (blockStart : Int)
      let timeSinceLastEntry : Int :=
        (e.timestamp : Int) - (lastEntry.timestamp : Int)
      if timeSinceBlockStart > (durMs : Int) then
        let closed := createBlock blockStart acc now durMs
        let gaps :=
          if timeSinceLastEntry > (durMs : Int) then
            match createGapBlock lastEntry.timestamp e.timestamp durMs with
            | some gapBlock => [gapBlock]
            | none => []
          else []
        closed :: gaps ++
          blocksLoopStartOnly durMs now (floorToHour e.timestamp) [e] rest
      else blocksLoopStartOnly durMs now blockStart (acc ++ [e]) rest

/-- The variant engine whose split condition drops the second disjunct. -/
def identifySessionBlocksStartOnly (now : Nat)
    (entries : List LoadedUsageEntry) (sessionDurationHours : Nat := 5) :
    List SessionBlock :=
  if entries.isEmpty then []
  else
    let sessionDurationMs := sessionDurationHours * 60 * 60 * 1000
    match sortByTs entries with
    | [] => []
    | e :: rest =>
        blocksLoopStartOnly sessionDurationMs now (floorToHour e.timestamp)
          [e] rest

/-- The gap pairs demanded by the specification: for each consecutive pair
of sorted records whose silence strictly exceeds the window duration, the
span from the earlier record's timestamp plus the window duration to the
later record's timestamp. -/
def gapPairs (durMs : Nat) (prev : Nat) :
    List LoadedUsageEntry → List (Nat × Nat)
  | [] => []
  | e :: rest =>
    if (e.timestamp : Int) - (prev : Int) > (durMs : Int) then
      (prev + durMs, e.timestamp) :: gapPairs durMs e.timestamp rest
    else gapPairs durMs e.timestamp rest

/-- The gap pairs of a whole record list, read off its sorted form. -/
def gapPairsOf (durMs : Nat) (sorted : List LoadedUsageEntry) :
    List (Nat × Nat) :=
  match sorted with
  | [] => []
  | e :: rest => gapPairs durMs e.timestamp rest

@[simp] theorem createBlock_isGap (s : Nat) (es : List LoadedUsageEntry)
    (now d : Nat) : (createBlock s es now d).isGap = false := rfl

@[simp] theorem createBlock_entries (s : Nat) (es : List LoadedUsageEntry)
    (now d : Nat) : (createBlock s es now d).entries = es := rfl

@[simp] theorem createBlock_startTime (s : Nat) (es : List LoadedUsageEntry)
    (now d : Nat) : (createBlock s es now d).startTime = s := rfl

@[simp] theorem createBlock_endTime (s : Nat) (es : List LoadedUsageEntry)
    (now d : Nat) : (createBlock s es now d).endTime = s + d := rfl

theorem createGapBlock_of_gt {l n d : Nat}
    (h : (d : Int) < (n : Int) - (l : Int)) :
    createGapBlock l n d =
      some
        { id := "gap-" ++ toString (l + d)
          startTime := l + d
          endTime := n
          actualEndTime := none
          isActive := false
          isGap := true
          entries := []
          tokenCounts :=
            { inputTokens := 0, outputTokens := 0
              cacheCreationInputTokens := 0, cacheReadInputTokens := 0 }
          costUSD := 0
          models := [] } := by
  simp only [createGapBlock]
  rw [if_neg (by omega)]


theorem getLast?_append_singleton {α : Type} (l : List α) (a : α) :
    (l ++ [a]).getLast? = some a :=
  List.getLast?_concat l

/-- The gap blocks produced by the walk are exactly the spec's gap pairs of
the remaining records, relative to the last record of the open block. -/
theorem blocksLoop_gapPairs (durMs now : Nat) :
    ∀ (rest : List LoadedUsageEntry) (blockStart : Nat)
      (acc : List LoadedUsageEntry) (a : LoadedUsageEntry),
      acc.getLast? = some a →
      ((blocksLoop durMs now blockStart acc rest).filter (·.isGap)).map
          (fun b => (b.startTime, b.endTime)) =
        gapPairs durMs a.timestamp rest := by
  intro rest
  induction rest with
  | nil =>
    intro blockStart acc a ha
    have hne : ¬acc.isEmpty := by
      cases acc with
      | nil => simp at ha
      | cons x xs => simp
    simp [blocksLoop, hne, gapPairs]
  | cons e rest ih =>
    intro blockStart acc a ha
    simp only [blocksLoop, ha]
    by_cases hsplit :
        (e.timestamp : Int) - (blockStart : Int) > (durMs : Int) ∨
          (e.timestamp : Int) - (a.timestamp : Int) > (durMs : Int)
    · rw [if_pos hsplit]
      by_cases hgap : (e.timestamp : Int) - (a.timestamp : Int) > (durMs : Int)
      · rw [if_pos hgap, createGapBlock_of_gt (by omega)]
        have hrec := ih (floorToHour e.timestamp) [e] e rfl
        simp [gapPairs, hgap, hrec]
      · rw [if_neg hgap]
        have hrec := ih (floorToHour e.timestamp) [e] e rfl
        simp [gapPairs, hgap, hrec]
    · rw [if_neg hsplit]
      have hgap : ¬(e.timestamp : Int) - (a.timestamp : Int) > (durMs : Int) :=
        fun h => hsplit (Or.inr h)
      rw [ih blockStart (acc ++ [e]) e (getLast?_append_singleton acc e)]
      simp [gapPairs, hgap]

/-- Every gap block the walk produces holds no entries. -/
theorem blocksLoop_gap_entries (durMs now : Nat) :
    ∀ (rest : List LoadedUsageEntry) (blockStart : Nat)
      (acc : List LoadedUsageEntry),
      ∀ b ∈ blocksLoop durMs now blockStart acc rest,
        b.isGap = true → b.entries = [] := by
  intro rest
  induction rest with
  | nil =>
    intro blockStart acc b hb hgap
    simp only [blocksLoop] at hb
    by_cases hne : acc.isEmpty
    · rw [if_pos hne] at hb
      simp at hb
    · rw [if_neg hne] at hb
      simp only [List.mem_singleton] at hb
      subst hb
      simp at hgap
  | cons e rest ih =>
    intro blockStart acc b hb hgap
    simp only [blocksLoop] at hb
    cases ha : acc.getLast? with
    | none =>
      rw [ha] at hb
      exact ih blockStart acc b hb hgap
    | some lastEntry =>
      simp only [ha] at hb
      by_cases hsplit :
          (e.timestamp : Int) - (blockStart : Int) > (durMs : Int) ∨
            (e.timestamp : Int) - (lastEntry.timestamp : Int) > (durMs : Int)
      · rw [if_pos hsplit] at hb
        rcases List.mem_cons.mp hb with rfl | hb2
        · simp at hgap
        · rcases List.mem_append.mp hb2 with hbg | hbr
          · by_cases hg :
                (e.timestamp : Int) - (lastEntry.timestamp : Int) > (durMs : Int)
            · rw [if_pos hg, createGapBlock_of_gt (by omega)] at hbg
              simp only [List.mem_singleton] at hbg
              subst hbg
              rfl
            · rw [if_neg hg] at hbg
              simp at hbg
          · exact ih (floorToHour e.timestamp) [e] b hbr hgap
      · rw [if_neg hsplit] at hb
        exact ih blockStart (acc ++ [e]) b hb hgap

theorem floorToHour_le (t : Nat) : floorToHour t ≤ t :=
  Nat.div_mul_le_self t (60 * 60 * 1000)

theorem floorToHour_mod (t : Nat) : floorToHour t % (60 * 60 * 1000) = 0 :=
  Nat.mul_mod_left (t / (60 * 60 * 1000)) (60 * 60 * 1000)

theorem le_floorToHour_of_aligned {s t : Nat} (halign : s % (60 * 60 * 1000) = 0)
    (h : s ≤ t) : s ≤ floorToHour t := by
  obtain ⟨k, rfl⟩ := Nat.dvd_of_mod_eq_zero halign
  calc (60 * 60 * 1000) * k = (60 * 60 * 1000) * k / (60 * 60 * 1000) * (60 * 60 * 1000) := by
        rw [Nat.mul_div_cancel_left k (by norm_num)]; ring
    _ ≤ t / (60 * 60 * 1000) * (60 * 60 * 1000) := by
        have : (60 * 60 * 1000) * k / (60 * 60 * 1000) ≤ t / (60 * 60 * 1000) :=
          Nat.div_le_div_right h
        exact Nat.mul_le_mul_right _ this

/-- The non-gap entry groups of the walk concatenate back to the records it
was given (gap blocks contribute nothing). -/
theorem blocksLoop_flatten (durMs now : Nat) :
    ∀ (rest : List LoadedUsageEntry) (blockStart : Nat)
      (acc : List LoadedUsageEntry), acc ≠ [] →
      (blocksLoop durMs now blockStart acc rest).flatMap (·.entries) =
        acc ++ rest := by
  intro rest
  induction rest with
  | nil =>
    intro blockStart acc hne
    have h : ¬acc.isEmpty := by simpa using hne
    simp [blocksLoop, h]
  | cons e rest ih =>
    intro blockStart acc hne
    obtain ⟨a, ha⟩ : ∃ a, acc.getLast? = some a := by
      cases hacc : acc.getLast? with
      | none => exact absurd (List.getLast?_eq_none_iff.mp hacc) hne
      | some a => exact ⟨a, rfl⟩
    simp only [blocksLoop, ha]
    by_cases hsplit :
        (e.timestamp : Int) - (blockStart : Int) > (durMs : Int) ∨
          (e.timestamp : Int) - (a.timestamp : Int) > (durMs : Int)
    · rw [if_pos hsplit]
      have hrec := ih (floorToHour e.timestamp) [e] (by simp)
      by_cases hgap : (e.timestamp : Int) - (a.timestamp : Int) > (durMs : Int)
      · rw [if_pos hgap, createGapBlock_of_gt (by omega)]
        simp [hrec]
      · rw [if_neg hgap]
        simp [hrec]
    · rw [if_neg hsplit]
      rw [ih blockStart (acc ++ [e]) (by simp)]
      simp

/-- Facts about every closed (non-gap) block of the walk: its start is at
or after the carried block start, hour-aligned; its end is its start plus
the window; its entries are nonempty and start at or after it. -/
theorem blocksLoop_nongap_facts (durMs now : Nat)
    (hdur : durMs % (60 * 60 * 1000) = 0) :
    ∀ (rest : List LoadedUsageEntry) (blockStart : Nat)
      (acc : List LoadedUsageEntry),
      (∀ x ∈ acc ++ rest, blockStart ≤ x.timestamp) →
      blockStart % (60 * 60 * 1000) = 0 →
      List.Pairwise entryLE (acc ++ rest) →
      acc ≠ [] →
      ∀ b ∈ blocksLoop durMs now blockStart acc rest, b.isGap = false →
        blockStart ≤ b.startTime ∧ b.startTime % (60 * 60 * 1000) = 0 ∧
          b.endTime = b.startTime + durMs ∧
          (∀ x ∈ b.entries, b.startTime ≤ x.timestamp) ∧ b.entries ≠ [] := by
  intro rest
  induction rest with
  | nil =>
    intro blockStart acc hstart halign hsorted hne b hb _
    have h : ¬acc.isEmpty := by simpa using hne
    simp only [blocksLoop, h, if_neg, Bool.not_eq_true] at hb
    simp only [List.mem_singleton] at hb
    subst hb
    refine ⟨le_refl _, halign, rfl, ?_, by simpa using hne⟩
    intro x hx
    have hx' : x ∈ acc := by simpa using hx
    exact hstart x (by simp [hx'])
  | cons e rest ih =>
    intro blockStart acc hstart halign hsorted hne b hb hbgap
    obtain ⟨a, ha⟩ : ∃ a, acc.getLast? = some a := by
      cases hacc : acc.getLast? with
      | none => exact absurd (List.getLast?_eq_none_iff.mp hacc) hne
      | some a => exact ⟨a, rfl⟩
    simp only [blocksLoop, ha] at hb
    have hemem : e ∈ acc ++ e :: rest := by simp
    have hsorted' : List.Pairwise entryLE (e :: rest) :=
      (List.pairwise_append.mp hsorted).2.1
    have hstart_rec : ∀ x ∈ [e] ++ rest, floorToHour e.timestamp ≤ x.timestamp := by
      intro x hx
      rcases List.mem_append.mp hx with hx | hx
      · simp only [List.mem_singleton] at hx
        subst hx
        exact floorToHour_le _
      · exact le_trans (floorToHour_le _)
          ((List.pairwise_cons.mp hsorted').1 x hx)
    have hle_floor : blockStart ≤ floorToHour e.timestamp :=
      le_floorToHour_of_aligned halign (hstart e hemem)
    by_cases hsplit :
        (e.timestamp : Int) - (blockStart : Int) > (durMs : Int) ∨
          (e.timestamp : Int) - (a.timestamp : Int) > (durMs : Int)
    · rw [if_pos hsplit] at hb
      rcases List.mem_cons.mp hb with rfl | hb2
      · refine ⟨le_refl _, halign, rfl, ?_, hne⟩
        intro x hx
        have hx' : x ∈ acc := by simpa using hx
        exact hstart x (by simp [hx'])
      · rcases List.mem_append.mp hb2 with hbg | hbr
        · exfalso
          by_cases hg :
              (e.timestamp : Int) - (a.timestamp : Int) > (durMs : Int)
          · rw [if_pos hg, createGapBlock_of_gt (by omega)] at hbg
            simp only [List.mem_singleton] at hbg
            subst hbg
            simp at hbgap
          · rw [if_neg hg] at hbg
            simp at hbg
        · have hrec := ih (floorToHour e.timestamp) [e] hstart_rec
            (floorToHour_mod _)
            (by simpa using hsorted') (by simp) b hbr hbgap
          exact ⟨le_trans hle_floor hrec.1, hrec.2⟩
    · rw [if_neg hsplit] at hb
      have hstart' : ∀ x ∈ (acc ++ [e]) ++ rest, blockStart ≤ x.timestamp := by
        intro x hx
        exact hstart x (by simpa [List.append_assoc] using hx)
      have hsorted'' : List.Pairwise entryLE ((acc ++ [e]) ++ rest) := by
        simpa [List.append_assoc] using hsorted
      exact ih blockStart (acc ++ [e]) hstart' halign hsorted'' (by simp) b hb hbgap

/-- Ordering of the walk's blocks: a closed block ends no later than any
later closed block starts, and every record of a later closed block lies
strictly more than the window duration after the earlier block's start. -/
theorem blocksLoop_ordered (durMs now : Nat)
    (hdur : durMs % (60 * 60 * 1000) = 0) :
    ∀ (rest : List LoadedUsageEntry) (blockStart : Nat)
      (acc : List LoadedUsageEntry),
      (∀ x ∈ acc ++ rest, blockStart ≤ x.timestamp) →
      blockStart % (60 * 60 * 1000) = 0 →
      List.Pairwise entryLE (acc ++ rest) →
      acc ≠ [] →
      List.Pairwise
        (fun b1 b2 => b1.isGap = false → b2.isGap = false →
          b1.endTime ≤ b2.startTime ∧
            ∀ x ∈ b2.entries,
              (durMs : Int) < (x.timestamp : Int) - (b1.startTime : Int))
        (blocksLoop durMs now blockStart acc rest) := by
  intro rest
  induction rest with
  | nil =>
    intro blockStart acc hstart halign hsorted hne
    by_cases h : acc.isEmpty
    · simp [blocksLoop, h]
    · simp [blocksLoop, h]
  | cons e rest ih =>
    intro blockStart acc hstart halign hsorted hne
    obtain ⟨a, ha⟩ : ∃ a, acc.getLast? = some a := by
      cases hacc : acc.getLast? with
      | none => exact absurd (List.getLast?_eq_none_iff.mp hacc) hne
      | some a => exact ⟨a, rfl⟩
    simp only [blocksLoop, ha]
    have hsorted' : List.Pairwise entryLE (e :: rest) :=
      (List.pairwise_append.mp hsorted).2.1
    have hstart_rec :
        ∀ x ∈ [e] ++ rest, floorToHour e.timestamp ≤ x.timestamp := by
      intro x hx
      rcases List.mem_append.mp hx with hx | hx
      · simp only [List.mem_singleton] at hx
        subst hx
        exact floorToHour_le _
      · exact le_trans (floorToHour_le _)
          ((List.pairwise_cons.mp hsorted').1 x hx)
    by_cases hsplit :
        (e.timestamp : Int) - (blockStart : Int) > (durMs : Int) ∨
          (e.timestamp : Int) - (a.timestamp : Int) > (durMs : Int)
    · rw [if_pos hsplit]
      have hamem : a ∈ acc := List.mem_of_mem_getLast? ha
      have key : blockStart + durMs < e.timestamp := by
        rcases hsplit with h | h
        · omega
        · have := hstart a (by simp [hamem])
          omega
      have ihrec := ih (floorToHour e.timestamp) [e] hstart_rec
        (floorToHour_mod _) (by simpa using hsorted') (by simp)
      have hRclosed :
          ∀ b' ∈ blocksLoop durMs now (floorToHour e.timestamp) [e] rest,
            (createBlock blockStart acc now durMs).isGap = false →
              b'.isGap = false →
              (createBlock blockStart acc now durMs).endTime ≤ b'.startTime ∧
                ∀ x ∈ b'.entries,
                  (durMs : Int) <
                    (x.timestamp : Int) -
                      ((createBlock blockStart acc now durMs).startTime : Int) := by
        intro b' hb' _ h2
        have hfacts := blocksLoop_nongap_facts durMs now hdur rest
          (floorToHour e.timestamp) [e] hstart_rec (floorToHour_mod _)
          (by simpa using hsorted') (by simp) b' hb' h2
        constructor
        · have halign2 : (blockStart + durMs) % (60 * 60 * 1000) = 0 := by
            omega
          have h1 : blockStart + durMs ≤ floorToHour e.timestamp :=
            le_floorToHour_of_aligned halign2 (le_of_lt key)
          simpa using le_trans h1 hfacts.1
        · intro x hx
          have hxmem : x ∈ [e] ++ rest := by
            rw [← blocksLoop_flatten durMs now rest (floorToHour e.timestamp)
              [e] (by simp)]
            exact List.mem_flatMap.mpr ⟨b', hb', hx⟩
          have hxe : e.timestamp ≤ x.timestamp := by
            rcases List.mem_append.mp hxmem with hx' | hx'
            · simp only [List.mem_singleton] at hx'
              subst hx'
              exact le_refl _
            · exact (List.pairwise_cons.mp hsorted').1 x hx'
          simp only [createBlock_startTime]
          omega
      by_cases hg : (e.timestamp : Int) - (a.timestamp : Int) > (durMs : Int)
      · rw [if_pos hg, createGapBlock_of_gt (by omega)]
        refine List.pairwise_cons.mpr ⟨?_, List.pairwise_cons.mpr ⟨?_, ihrec⟩⟩
        · intro b' hb'
          rcases List.mem_cons.mp hb' with rfl | hb'
          · intro _ h2
            simp at h2
          · exact hRclosed b' hb'
        · intro b' hb' h1 _
          simp at h1
      · rw [if_neg hg]
        exact List.pairwise_cons.mpr ⟨hRclosed, ihrec⟩
    · rw [if_neg hsplit]
      have hstart' : ∀ x ∈ (acc ++ [e]) ++ rest, blockStart ≤ x.timestamp := by
        intro x hx
        exact hstart x (by simpa [List.append_assoc] using hx)
      have hsorted'' : List.Pairwise entryLE ((acc ++ [e]) ++ rest) := by
        simpa [List.append_assoc] using hsorted
      exact ih blockStart (acc ++ [e]) hstart' halign hsorted'' (by simp)

theorem sortByTs_perm (l : List LoadedUsageEntry) : (sortByTs l).Perm l :=
  List.perm_insertionSort entryLE l

theorem sortByTs_sorted (l : List LoadedUsageEntry) :
    List.Pairwise entryLE (sortByTs l) :=
  List.sorted_insertionSort entryLE l

/-- Normal form of the engine: the walk over the sorted records. -/
theorem identifySessionBlocks_def (now : Nat) (entries : List LoadedUsageEntry)
    (hours : Nat) :
    identifySessionBlocks now entries hours =
      match sortByTs entries with
      | [] => []
      | e :: rest =>
          blocksLoop (hours * 60 * 60 * 1000) now (floorToHour e.timestamp)
            [e] rest := by
  unfold identifySessionBlocks
  by_cases h : entries.isEmpty
  · rw [if_pos h]
    have he : entries = [] := by simpa using h
    subst he
    rfl
  · rw [if_neg h]

/-- Each block's entries are in chronological order. -/
theorem blocksLoop_entries_sorted (durMs now : Nat) :
    ∀ (rest : List LoadedUsageEntry) (blockStart : Nat)
      (acc : List LoadedUsageEntry),
      List.Pairwise entryLE (acc ++ rest) →
      ∀ b ∈ blocksLoop durMs now blockStart acc rest,
        List.Pairwise entryLE b.entries := by
  intro rest
  induction rest with
  | nil =>
    intro blockStart acc hsorted b hb
    simp only [blocksLoop] at hb
    by_cases h : acc.isEmpty
    · rw [if_pos h] at hb
      simp at hb
    · rw [if_neg h] at hb
      simp only [List.mem_singleton] at hb
      subst hb
      simpa using (List.pairwise_append.mp hsorted).1
  | cons e rest ih =>
    intro blockStart acc hsorted b hb
    simp only [blocksLoop] at hb
    have hsorted' : List.Pairwise entryLE (e :: rest) :=
      (List.pairwise_append.mp hsorted).2.1
    cases ha : acc.getLast? with
    | none =>
      rw [ha] at hb
      have hacc : acc = [] := List.getLast?_eq_none_iff.mp ha
      subst hacc
      exact ih blockStart [] (by simpa using (List.pairwise_cons.mp hsorted').2)
        b hb
    | some a =>
      simp only [ha] at hb
      by_cases hsplit :
          (e.timestamp : Int) - (blockStart : Int) > (durMs : Int) ∨
            (e.timestamp : Int) - (a.timestamp : Int) > (durMs : Int)
      · rw [if_pos hsplit] at hb
        rcases List.mem_cons.mp hb with rfl | hb2
        · simpa using (List.pairwise_append.mp hsorted).1
        · rcases List.mem_append.mp hb2 with hbg | hbr
          · by_cases hg :
                (e.timestamp : Int) - (a.timestamp : Int) > (durMs : Int)
            · rw [if_pos hg, createGapBlock_of_gt (by omega)] at hbg
              simp only [List.mem_singleton] at hbg
              subst hbg
              simp
            · rw [if_neg hg] at hbg
              simp at hbg
          · exact ih (floorToHour e.timestamp) [e]
              (by simpa using hsorted') b hbr
      · rw [if_neg hsplit] at hb
        exact ih blockStart (acc ++ [e])
          (by simpa [List.append_assoc] using hsorted) b hb

/-- Every block of the walk is a closed block built by `createBlock` with
the walk's `now` and window, or an inactive gap block. -/
theorem blocksLoop_shape (durMs now : Nat) :
    ∀ (rest : List LoadedUsageEntry) (blockStart : Nat)
      (acc : List LoadedUsageEntry),
      ∀ b ∈ blocksLoop durMs now blockStart acc rest,
        (b.isGap = false ∧ ∃ s es, b = createBlock s es now durMs) ∨
          (b.isGap = true ∧ b.isActive = false) := by
  intro rest
  induction rest with
  | nil =>
    intro blockStart acc b hb
    simp only [blocksLoop] at hb
    by_cases h : acc.isEmpty
    · rw [if_pos h] at hb
      simp at hb
    · rw [if_neg h] at hb
      simp only [List.mem_singleton] at hb
      subst hb
      exact Or.inl ⟨rfl, blockStart, acc, rfl⟩
  | cons e rest ih =>
    intro blockStart acc b hb
    simp only [blocksLoop] at hb
    cases ha : acc.getLast? with
    | none =>
      rw [ha] at hb
      exact ih blockStart acc b hb
    | some a =>
      simp only [ha] at hb
      by_cases hsplit :
          (e.timestamp : Int) - (blockStart : Int) > (durMs : Int) ∨
            (e.timestamp : Int) - (a.timestamp : Int) > (durMs : Int)
      · rw [if_pos hsplit] at hb
        rcases List.mem_cons.mp hb with rfl | hb2
        · exact Or.inl ⟨rfl, blockStart, acc, rfl⟩
        · rcases List.mem_append.mp hb2 with hbg | hbr
          · by_cases hg :
                (e.timestamp : Int) - (a.timestamp : Int) > (durMs : Int)
            · rw [if_pos hg, createGapBlock_of_gt (by omega)] at hbg
              simp only [List.mem_singleton] at hbg
              subst hbg
              exact Or.inr ⟨rfl, rfl⟩
            · rw [if_neg hg] at hbg
              simp at hbg
          · exact ih (floorToHour e.timestamp) [e] b hbr
      · rw [if_neg hsplit] at hb
        exact ih blockStart (acc ++ [e]) b hb

/-- A list in which no two members both satisfy `p` has at most one member
satisfying `p`. -/
theorem countP_le_one_of_pairwise {α : Type} (p : α → Bool) :
    ∀ l : List α,
      List.Pairwise (fun a b => ¬(p a = true ∧ p b = true)) l →
      l.countP p ≤ 1 := by
  intro l
  induction l with
  | nil => intro _; simp
  | cons a l ih =>
    intro hp
    obtain ⟨hhead, htl⟩ := List.pairwise_cons.mp hp
    by_cases hpa : p a = true
    · have hzero : l.countP p = 0 := by
        rw [List.countP_eq_zero]
        intro b hb
        intro hpb
        exact hhead b hb ⟨hpa, hpb⟩
      simp [List.countP_cons, hpa, hzero]
    · simp only [List.countP_cons, hpa, if_false]
      simpa using ih htl

/-- Demo record at 00:30 UTC (used to exhibit a gap block). -/
def demoGapE1 : LoadedUsageEntry := ⟨1800000, 1, 0, 0, 0, none, "m"⟩

/-- Demo record at 06:30 UTC (silence of 6 h after `demoGapE1`). -/
def demoGapE2 : LoadedUsageEntry := ⟨23400000, 1, 0, 0, 0, none, "m"⟩

/-- Demo input whose two records are 6 h apart (gap with a 5 h window). -/
def demoGapEntries : List LoadedUsageEntry := [demoGapE1, demoGapE2]

/-- Claim C1: a gap block is emitted between two consecutive sorted records
if and only if the silence between them strictly exceeds the window
duration (the emitted gap spans from the earlier record's timestamp plus
the window to the later record's timestamp), and every gap block holds no
records.  A silence exactly equal to the window produces no gap pair, by
the strict inequality in `gapPairs`. -/
theorem identifySessionBlocks_gap_iff (now : Nat)
    (entries : List LoadedUsageEntry) (sessionDurationHours : Nat) :
    (((identifySessionBlocks now entries sessionDurationHours).filter
          (·.isGap)).map (fun b => (b.startTime, b.endTime)) =
        gapPairsOf (sessionDurationHours * 60 * 60 * 1000) (sortByTs entries)) ∧
      ∀ b ∈ identifySessionBlocks now entries sessionDurationHours,
        b.isGap = true → b.entries = [] := by
  rw [identifySessionBlocks_def]
  cases hs : sortByTs entries with
  | nil => simp [gapPairsOf]
  | cons e rest =>
    constructor
    · exact blocksLoop_gapPairs _ now rest (floorToHour e.timestamp) [e] e rfl
    · exact blocksLoop_gap_entries _ now rest (floorToHour e.timestamp) [e]

/-- Witness for C1 at a concrete input (records 6 h apart, 5 h window):
the emitted gap block holds no records. -/
theorem identifySessionBlocks_gap_iff_witness :
    ((identifySessionBlocks 0 demoGapEntries 5).get ⟨1, by decide⟩).entries
      = [] :=
  (identifySessionBlocks_gap_iff 0 demoGapEntries 5).2 _
    (List.get_mem _ _ _) (by decide)

/-- Inside every closed block, consecutive entries are at most the window
duration apart, and every entry after the first lies at most the window
duration after the block's start. -/
theorem blocksLoop_within (durMs now : Nat) :
    ∀ (rest : List LoadedUsageEntry) (blockStart : Nat)
      (acc : List LoadedUsageEntry),
      List.Pairwise entryLE (acc ++ rest) →
      acc ≠ [] →
      List.Chain'
        (fun x y => (y.timestamp : Int) - (x.timestamp : Int) ≤ (durMs : Int))
        acc →
      (∀ y ∈ acc.tail,
        (y.timestamp : Int) - (blockStart : Int) ≤ (durMs : Int)) →
      ∀ b ∈ blocksLoop durMs now blockStart acc rest, b.isGap = false →
        List.Chain'
          (fun x y =>
            (y.timestamp : Int) - (x.timestamp : Int) ≤ (durMs : Int))
          b.entries ∧
        ∀ y ∈ b.entries.tail,
          (y.timestamp : Int) - (b.startTime : Int) ≤ (durMs : Int) := by
  intro rest
  induction rest with
  | nil =>
    intro blockStart acc hsorted hne hchain htail b hb _
    simp only [blocksLoop] at hb
    rw [if_neg (by simpa using hne)] at hb
    simp only [List.mem_singleton] at hb
    subst hb
    exact ⟨hchain, htail⟩
  | cons e rest ih =>
    intro blockStart acc hsorted hne hchain htail b hb hbgap
    obtain ⟨a, ha⟩ : ∃ a, acc.getLast? = some a := by
      cases hacc : acc.getLast? with
      | none => exact absurd (List.getLast?_eq_none_iff.mp hacc) hne
      | some a => exact ⟨a, rfl⟩
    simp only [blocksLoop, ha] at hb
    have hsorted' : List.Pairwise entryLE (e :: rest) :=
      (List.pairwise_append.mp hsorted).2.1
    by_cases hsplit :
        (e.timestamp : Int) - (blockStart : Int) > (durMs : Int) ∨
          (e.timestamp : Int) - (a.timestamp : Int) > (durMs : Int)
    · rw [if_pos hsplit] at hb
      rcases List.mem_cons.mp hb with rfl | hb2
      · exact ⟨hchain, htail⟩
      · rcases List.mem_append.mp hb2 with hbg | hbr
        · exfalso
          by_cases hg :
              (e.timestamp : Int) - (a.timestamp : Int) > (durMs : Int)
          · rw [if_pos hg, createGapBlock_of_gt (by omega)] at hbg
            simp only [List.mem_singleton] at hbg
            subst hbg
            simp at hbgap
          · rw [if_neg hg] at hbg
            simp at hbg
        · exact ih (floorToHour e.timestamp) [e] (by simpa using hsorted')
            (by simp) (List.chain'_singleton e) (by simp) b hbr hbgap
    · rw [if_neg hsplit] at hb
      push_neg at hsplit
      obtain ⟨hA, hB⟩ := hsplit
      have hchain' : List.Chain'
          (fun x y =>
            (y.timestamp : Int) - (x.timestamp : Int) ≤ (durMs : Int))
          (acc ++ [e]) := by
        rw [List.chain'_append]
        refine ⟨hchain, List.chain'_singleton e, ?_⟩
        intro x hx y hy
        simp only [ha, Option.mem_some_iff] at hx
        simp only [List.head?_cons, Option.mem_some_iff] at hy
        subst hx
        subst hy
        exact hB
      have htail' : ∀ y ∈ (acc ++ [e]).tail,
          (y.timestamp : Int) - (blockStart : Int) ≤ (durMs : Int) := by
        cases acc with
        | nil => exact absurd rfl hne
        | cons u us =>
          intro y hy
          simp only [List.cons_append, List.tail_cons] at hy
          rcases List.mem_append.mp hy with hy | hy
          · exact htail y (by simpa using hy)
          · simp only [List.mem_singleton] at hy
            subst hy
            exact hA
      exact ih blockStart (acc ++ [e])
        (by simpa [List.append_assoc] using hsorted) (by simp) hchain' htail'
        b hb hbgap

/-- When every consecutive pair of sorted records is strictly more than the
window apart, the walk produces one singleton block per record. -/
theorem blocksLoop_spaced (durMs now : Nat) :
    ∀ (rest : List LoadedUsageEntry) (a : LoadedUsageEntry)
      (blockStart : Nat),
      List.Chain'
        (fun x y => (durMs : Int) < (y.timestamp : Int) - (x.timestamp : Int))
        (a :: rest) →
      ((blocksLoop durMs now blockStart [a] rest).filter
          (fun b => !b.isGap)).map (·.entries) =
        (a :: rest).map (fun e => [e]) := by
  intro rest
  induction rest with
  | nil =>
    intro a blockStart _
    simp [blocksLoop]
  | cons e rest ih =>
    intro a blockStart hchain
    obtain ⟨hd, htl⟩ := List.chain'_cons.mp hchain
    simp only [blocksLoop, List.getLast?_singleton]
    rw [if_pos (Or.inr hd), if_pos hd, createGapBlock_of_gt (by omega)]
    have hrec := ih e (floorToHour e.timestamp) htl
    simp [hrec]

/-- Under the walk's invariant (the open block's records never precede its
start), the time-since-last-record disjunct of the split condition is
redundant: the start-only variant of the walk is the walk. -/
theorem blocksLoopStartOnly_eq (durMs now : Nat) :
    ∀ (rest : List LoadedUsageEntry) (blockStart : Nat)
      (acc : List LoadedUsageEntry),
      (∀ x ∈ acc, blockStart ≤ x.timestamp) →
      List.Pairwise entryLE (acc ++ rest) →
      blocksLoopStartOnly durMs now blockStart acc rest =
        blocksLoop durMs now blockStart acc rest := by
  intro rest
  induction rest with
  | nil =>
    intro blockStart acc _ _
    rfl
  | cons e rest ih =>
    intro blockStart acc hstart hsorted
    cases ha : acc.getLast? with
    | none =>
      have hacc : acc = [] := List.getLast?_eq_none_iff.mp ha
      subst hacc
      simp only [blocksLoopStartOnly, blocksLoop, List.getLast?_nil]
      exact ih blockStart [] (by simp)
        (by simpa using (List.pairwise_cons.mp (by simpa using hsorted)).2)
    | some a =>
      simp only [blocksLoopStartOnly, blocksLoop, ha]
      have hamem : a ∈ acc := List.mem_of_mem_getLast? ha
      have hblea : blockStart ≤ a.timestamp := hstart a hamem
      have himp :
          (e.timestamp : Int) - (a.timestamp : Int) > (durMs : Int) →
            (e.timestamp : Int) - (blockStart : Int) > (durMs : Int) := by
        omega
      have hsorted' : List.Pairwise entryLE (e :: rest) :=
        (List.pairwise_append.mp hsorted).2.1
      by_cases hA : (e.timestamp : Int) - (blockStart : Int) > (durMs : Int)
      · rw [if_pos hA, if_pos (Or.inl hA)]
        rw [ih (floorToHour e.timestamp) [e]
          (by
            intro x hx
            simp only [List.mem_singleton] at hx
            subst hx
            exact floorToHour_le _)
          (by simpa using hsorted')]
      · have hB : ¬(e.timestamp : Int) - (a.timestamp : Int) > (durMs : Int) :=
          fun h => hA (himp h)
        rw [if_neg hA, if_neg (by simp [hA, hB])]
        have hae : a.timestamp ≤ e.timestamp :=
          (List.pairwise_append.mp hsorted).2.2 a hamem e (by simp)
        exact ih blockStart (acc ++ [e])
          (by
            intro x hx
            rcases List.mem_append.mp hx with hx | hx
            · exact hstart x hx
            · simp only [List.mem_singleton] at hx
              subst hx
              exact le_trans hblea hae)
          (by simpa [List.append_assoc] using hsorted)

/-- Claim C10: every record of a block lies at or after the block's
hour-floored start, and therefore the engine variant whose split condition
tests only the time since the block start produces exactly the same output
as the real engine — the time-since-last-record disjunct is redundant for
block splitting. -/
theorem identifySessionBlocks_startOnly_eq (now : Nat)
    (entries : List LoadedUsageEntry) (sessionDurationHours : Nat) :
    identifySessionBlocksStartOnly now entries sessionDurationHours =
        identifySessionBlocks now entries sessionDurationHours ∧
      ∀ b ∈ identifySessionBlocks now entries sessionDurationHours,
        ∀ x ∈ b.entries, b.startTime ≤ x.timestamp := by
  constructor
  · unfold identifySessionBlocksStartOnly identifySessionBlocks
    by_cases h : entries.isEmpty
    · rw [if_pos h, if_pos h]
    · rw [if_neg h, if_neg h]
      cases hs : sortByTs entries with
      | nil => rfl
      | cons e rest =>
        have hsorted : List.Pairwise entryLE (e :: rest) := by
          rw [← hs]; exact sortByTs_sorted entries
        exact blocksLoopStartOnly_eq _ now rest (floorToHour e.timestamp) [e]
          (by
            intro x hx
            simp only [List.mem_singleton] at hx
            subst hx
            exact floorToHour_le _)
          (by simpa using hsorted)
  · rw [identifySessionBlocks_def]
    cases hs : sortByTs entries with
    | nil => simp
    | cons e rest =>
      intro b hb x hx
      have hsorted : List.Pairwise entryLE (e :: rest) := by
        rw [← hs]; exact sortByTs_sorted entries
      cases hgap : b.isGap with
      | true =>
        have := blocksLoop_gap_entries _ now rest (floorToHour e.timestamp)
          [e] b hb hgap
        rw [this] at hx
        simp at hx
      | false =>
        have hfacts := blocksLoop_nongap_facts _ now (by omega) rest
          (floorToHour e.timestamp) [e]
          (by
            intro y hy
            rcases List.mem_append.mp hy with hy | hy
            · simp only [List.mem_singleton] at hy
              subst hy
              exact floorToHour_le _
            · exact le_trans (floorToHour_le _)
                ((List.pairwise_cons.mp hsorted).1 y hy))
          (floorToHour_mod _) (by simpa using hsorted) (by simp) b hb hgap
        exact hfacts.2.2.2.1 x hx

/-- Witness for C10 at a concrete input: the first block of the demo run
starts no later than its first record. -/
theorem identifySessionBlocks_startOnly_eq_witness :
    ((identifySessionBlocks 0 demoGapEntries 5).get ⟨0, by decide⟩).startTime ≤
      demoGapE1.timestamp :=
  (identifySessionBlocks_startOnly_eq 0 demoGapEntries 5).2 _
    (List.get_mem _ _ _) demoGapE1 (by decide)

theorem flatMap_filter_nongap (bs : List SessionBlock)
    (h : ∀ b ∈ bs, b.isGap = true → b.entries = []) :
    (bs.filter (fun b => !b.isGap)).flatMap (·.entries) =
      bs.flatMap (·.entries) := by
  induction bs with
  | nil => rfl
  | cons b bs ih =>
    have hrec := ih (fun b' hb' => h b' (List.mem_cons_of_mem b hb'))
    cases hgap : b.isGap with
    | false => simp [List.filter_cons, hgap, hrec]
    | true =>
      have hemp := h b (List.mem_cons_self b bs) hgap
      simp [List.filter_cons, hgap, hrec, hemp]

/-- Claim C3: the non-gap blocks partition the input (their entry lists
concatenate to a permutation of the input records), each block's entries
are chronological, the non-gap blocks are pairwise non-overlapping (each
ends no later than any later one starts), and for a non-empty input whose
records are pairwise more than the window apart the engine returns one
singleton block per record. -/
theorem identifySessionBlocks_partition (now : Nat)
    (entries : List LoadedUsageEntry) (sessionDurationHours : Nat) :
    ((((identifySessionBlocks now entries sessionDurationHours).filter
          (fun b => !b.isGap)).flatMap (·.entries)).Perm entries) ∧
      (∀ b ∈ identifySessionBlocks now entries sessionDurationHours,
        List.Pairwise entryLE b.entries) ∧
      List.Pairwise (fun b1 b2 => b1.endTime ≤ b2.startTime)
        ((identifySessionBlocks now entries sessionDurationHours).filter
          (fun b => !b.isGap)) ∧
      (entries ≠ [] →
        List.Pairwise
          (fun x y =>
            ((sessionDurationHours * 60 * 60 * 1000 : Nat) : Int) <
                (y.timestamp : Int) - (x.timestamp : Int) ∨
              ((sessionDurationHours * 60 * 60 * 1000 : Nat) : Int) <
                (x.timestamp : Int) - (y.timestamp : Int))
          entries →
        ((identifySessionBlocks now entries sessionDurationHours).filter
            (fun b => !b.isGap)).map (·.entries) =
          (sortByTs entries).map (fun e => [e])) := by
  rw [identifySessionBlocks_def]
  cases hs : sortByTs entries with
  | nil =>
    have hent : entries = [] := by
      have hp := sortByTs_perm entries
      rw [hs] at hp
      exact hp.symm.eq_nil
    subst hent
    simp
  | cons e rest =>
    have hsorted : List.Pairwise entryLE (e :: rest) := by
      rw [← hs]; exact sortByTs_sorted entries
    have hstart : ∀ y ∈ [e] ++ rest, floorToHour e.timestamp ≤ y.timestamp := by
      intro y hy
      rcases List.mem_append.mp hy with hy | hy
      · simp only [List.mem_singleton] at hy
        subst hy
        exact floorToHour_le _
      · exact le_trans (floorToHour_le _)
          ((List.pairwise_cons.mp hsorted).1 y hy)
    refine ⟨?_, ?_, ?_, ?_⟩
    · rw [flatMap_filter_nongap _
        (blocksLoop_gap_entries _ now rest (floorToHour e.timestamp) [e])]
      rw [blocksLoop_flatten _ now rest (floorToHour e.timestamp) [e] (by simp)]
      have : ([e] ++ rest : List LoadedUsageEntry) = sortByTs entries := by
        rw [hs]; rfl
      rw [this]
      exact sortByTs_perm entries
    · exact blocksLoop_entries_sorted _ now rest (floorToHour e.timestamp) [e]
        (by simpa using hsorted)
    · have hord := blocksLoop_ordered
        (sessionDurationHours * 60 * 60 * 1000) now (by omega) rest
        (floorToHour e.timestamp) [e] hstart (floorToHour_mod _)
        (by simpa using hsorted) (by simp)
      have hfil := hord.filter (fun b => !b.isGap)
      refine List.Pairwise.imp_of_mem ?_ hfil
      intro b1 b2 hb1 hb2 hR
      have h1 : b1.isGap = false := by
        have := (List.mem_filter.mp hb1).2
        simpa using this
      have h2 : b2.isGap = false := by
        have := (List.mem_filter.mp hb2).2
        simpa using this
      exact (hR h1 h2).1
    · intro hne hpw
      have hpws : List.Pairwise
          (fun x y =>
            ((sessionDurationHours * 60 * 60 * 1000 : Nat) : Int) <
                (y.timestamp : Int) - (x.timestamp : Int) ∨
              ((sessionDurationHours * 60 * 60 * 1000 : Nat) : Int) <
                (x.timestamp : Int) - (y.timestamp : Int))
          (sortByTs entries) := by
        refine ((sortByTs_perm entries).pairwise_iff ?_).mpr hpw
        intro x y hxy
        exact hxy.symm
      rw [hs] at hpws
      have hchain : List.Chain'
          (fun x y =>
            ((sessionDurationHours * 60 * 60 * 1000 : Nat) : Int) <
              (y.timestamp : Int) - (x.timestamp : Int)) (e :: rest) := by
        have hand := List.Pairwise.and hsorted hpws
        refine List.Pairwise.chain' (hand.imp ?_)
        intro x y hxy
        obtain ⟨hle, hor⟩ := hxy
        have hle' : x.timestamp ≤ y.timestamp := hle
        rcases hor with h | h
        · exact h
        · omega
      exact blocksLoop_spaced _ now rest e (floorToHour e.timestamp) hchain

/-- Witness for C3 at a concrete input (two records 6 h apart, 5 h window):
one singleton block per record. -/
theorem identifySessionBlocks_partition_witness :
    ((identifySessionBlocks 0 demoGapEntries 5).filter
        (fun b => !b.isGap)).map (·.entries) =
      (sortByTs demoGapEntries).map (fun e => [e]) :=
  (identifySessionBlocks_partition 0 demoGapEntries 5).2.2.2 (by decide)
    (by decide)

/-- Counterexample to claim C4 as stated: with records at 00:30 and 06:30
(6 h apart, 5 h window) and `now` = 04:00 — i.e. a record timestamped
after `now` — both closed blocks satisfy the `isActive` formula, so two
blocks are active in a single run. -/
theorem identifySessionBlocks_two_active_cex :
    ¬((identifySessionBlocks 14400000 demoGapEntries 5).countP
        (·.isActive) ≤ 1) := by decide

/-- Claim C4 (amended): provided no input record is timestamped after
`now` — true of every real run, where the records come from logs read
before `new Date()` is taken — at most one returned block has
`isActive = true`, where `isActive` is
`(now - actualEndTime) < windowDuration AND now < endTime` with
`actualEndTime` the block's last record timestamp. -/
theorem identifySessionBlocks_at_most_one_active (now : Nat)
    (entries : List LoadedUsageEntry) (sessionDurationHours : Nat)
    (hnow : ∀ e ∈ entries, e.timestamp ≤ now) :
    (identifySessionBlocks now entries sessionDurationHours).countP
      (·.isActive) ≤ 1 := by
  rw [identifySessionBlocks_def]
  cases hs : sortByTs entries with
  | nil => simp
  | cons e rest =>
    have hsorted : List.Pairwise entryLE (e :: rest) := by
      rw [← hs]; exact sortByTs_sorted entries
    have hstart : ∀ y ∈ [e] ++ rest, floorToHour e.timestamp ≤ y.timestamp := by
      intro y hy
      rcases List.mem_append.mp hy with hy | hy
      · simp only [List.mem_singleton] at hy
        subst hy
        exact floorToHour_le _
      · exact le_trans (floorToHour_le _)
          ((List.pairwise_cons.mp hsorted).1 y hy)
    have hnow' : ∀ y ∈ [e] ++ rest, y.timestamp ≤ now := by
      intro y hy
      have hy' : y ∈ sortByTs entries := by rw [hs]; simpa using hy
      exact hnow y ((sortByTs_perm entries).subset hy')
    have hord := blocksLoop_ordered
      (sessionDurationHours * 60 * 60 * 1000) now (by omega) rest
      (floorToHour e.timestamp) [e] hstart (floorToHour_mod _)
      (by simpa using hsorted) (by simp)
    apply countP_le_one_of_pairwise
    refine List.Pairwise.imp_of_mem ?_ hord
    intro b1 b2 hb1 hb2 hR hact
    obtain ⟨hact1, hact2⟩ := hact
    have hshape1 := blocksLoop_shape _ now rest (floorToHour e.timestamp)
      [e] b1 hb1
    have hshape2 := blocksLoop_shape _ now rest (floorToHour e.timestamp)
      [e] b2 hb2
    rcases hshape1 with ⟨hg1, s1, es1, hb1eq⟩ | ⟨_, hina1⟩
    · rcases hshape2 with ⟨hg2, _, _, _⟩ | ⟨_, hina2⟩
      · have hfacts2 := blocksLoop_nongap_facts
          (sessionDurationHours * 60 * 60 * 1000) now (by omega) rest
          (floorToHour e.timestamp) [e] hstart (floorToHour_mod _)
          (by simpa using hsorted) (by simp) b2 hb2 hg2
        obtain ⟨x, hx⟩ := List.exists_mem_of_ne_nil _ hfacts2.2.2.2.2
        have hxs : b2.startTime ≤ x.timestamp := hfacts2.2.2.2.1 x hx
        have hxnow : x.timestamp ≤ now := by
          apply hnow'
          rw [← blocksLoop_flatten (sessionDurationHours * 60 * 60 * 1000)
            now rest (floorToHour e.timestamp) [e] (by simp)]
          exact List.mem_flatMap.mpr ⟨b2, hb2, hx⟩
        have hend : b1.endTime ≤ b2.startTime := (hR hg1 hg2).1
        have hlt : now < b1.endTime := by
          rw [hb1eq] at hact1
          unfold createBlock at hact1
          simp only [Bool.and_eq_true, decide_eq_true_eq] at hact1
          rw [hb1eq]
          simpa using hact1.2
        omega
      · rw [hina2] at hact2
        exact absurd hact2 (by simp)
    · rw [hina1] at hact1
      exact absurd hact1 (by simp)

/-- Witness for C4 (amended) at a concrete input: `now` after both records,
at most one active block. -/
theorem identifySessionBlocks_at_most_one_active_witness :
    (identifySessionBlocks 39600000 demoGapEntries 5).countP
      (·.isActive) ≤ 1 :=
  identifySessionBlocks_at_most_one_active 39600000 demoGapEntries 5
    (by decide)

/-- Counterexample to claim C5 as stated: with records at 00:30 and 06:30
and a 5 h window, the run emits a gap block whose `startTime` (05:30) is
not floored to a UTC hour and whose `endTime` (06:30) is not
`startTime + windowDuration`. -/
theorem identifySessionBlocks_gap_start_unfloored_cex :
    ¬(∀ b ∈ identifySessionBlocks 0 demoGapEntries 5,
        b.startTime % (60 * 60 * 1000) = 0 ∧
          b.endTime = b.startTime + 5 * 60 * 60 * 1000) := by decide

/-- Claim C5 (amended): every non-gap block returned by
`identifySessionBlocks` has a `startTime` floored to the start of its UTC
hour and an `endTime` equal to `startTime` plus the window duration; a gap
block instead starts at the previous record's timestamp plus the window
(generally unfloored) and ends at the next record's timestamp. -/
theorem identifySessionBlocks_nongap_floored (now : Nat)
    (entries : List LoadedUsageEntry) (sessionDurationHours : Nat) :
    ∀ b ∈ identifySessionBlocks now entries sessionDurationHours,
      b.isGap = false →
      b.startTime % (60 * 60 * 1000) = 0 ∧
        b.endTime = b.startTime + sessionDurationHours * 60 * 60 * 1000 := by
  rw [identifySessionBlocks_def]
  cases hs : sortByTs entries with
  | nil => simp
  | cons e rest =>
    intro b hb hgap
    have hsorted : List.Pairwise entryLE (e :: rest) := by
      rw [← hs]; exact sortByTs_sorted entries
    have hfacts := blocksLoop_nongap_facts
      (sessionDurationHours * 60 * 60 * 1000) now (by omega) rest
      (floorToHour e.timestamp) [e]
      (by
        intro y hy
        rcases List.mem_append.mp hy with hy | hy
        · simp only [List.mem_singleton] at hy
          subst hy
          exact floorToHour_le _
        · exact le_trans (floorToHour_le _)
            ((List.pairwise_cons.mp hsorted).1 y hy))
      (floorToHour_mod _) (by simpa using hsorted) (by simp) b hb hgap
    exact ⟨hfacts.2.1, hfacts.2.2.1⟩

/-- Witness for C5 (amended) at a concrete input: the first (closed) block
of the demo run is hour-aligned with a 5 h span. -/
theorem identifySessionBlocks_nongap_floored_witness :
    ((identifySessionBlocks 0 demoGapEntries 5).get
        ⟨0, by decide⟩).startTime % (60 * 60 * 1000) = 0 ∧
      ((identifySessionBlocks 0 demoGapEntries 5).get
          ⟨0, by decide⟩).endTime =
        ((identifySessionBlocks 0 demoGapEntries 5).get
            ⟨0, by decide⟩).startTime + 5 * 60 * 60 * 1000 :=
  identifySessionBlocks_nongap_floored 0 demoGapEntries 5 _
    (List.get_mem _ _ _) (by decide)

/-- Scenario record at 00:00 with 10 input and 5 output tokens. -/
def demoScenarioE1 : LoadedUsageEntry := ⟨0, 10, 5, 0, 0, none, "m"⟩

/-- Scenario record at 04:00 with 10 input and 5 output tokens. -/
def demoScenarioE2 : LoadedUsageEntry := ⟨14400000, 10, 5, 0, 0, none, "m"⟩

/-- Scenario record at 09:00 with 10 input and 5 output tokens. -/
def demoScenarioE3 : LoadedUsageEntry := ⟨32400000, 10, 5, 0, 0, none, "m"⟩

/-- Boundary record at 00:00. -/
def demoBoundaryE1 : LoadedUsageEntry := ⟨0, 1, 0, 0, 0, none, "m"⟩

/-- Boundary record at exactly 05:00 (one window after `demoBoundaryE1`). -/
def demoBoundaryE2 : LoadedUsageEntry := ⟨18000000, 1, 0, 0, 0, none, "m"⟩

/-- Claim C2: the engine splits exactly when a record's distance from the
open block's start or from the last record strictly exceeds the window.
Extensionally: (i) within a block, consecutive entries are at most the
window apart and every non-first entry lies at most the window after the
block start (so a boundary-equal distance never splits); (ii) every record
of a later block lies strictly more than the window after any earlier
block's start; (iii) the 00:00/04:00/09:00 scenario with a 5 h window
yields exactly two blocks — 00:00 with the first two records, 09:00 with
the third, no gap — and (iv) two records exactly one window apart share a
single block. -/
theorem identifySessionBlocks_split_iff :
    (∀ (now : Nat) (entries : List LoadedUsageEntry)
        (sessionDurationHours : Nat),
      (∀ b ∈ identifySessionBlocks now entries sessionDurationHours,
        b.isGap = false →
          List.Chain'
            (fun x y => (y.timestamp : Int) - (x.timestamp : Int) ≤
              ((sessionDurationHours * 60 * 60 * 1000 : Nat) : Int))
            b.entries ∧
          ∀ y ∈ b.entries.tail,
            (y.timestamp : Int) - (b.startTime : Int) ≤
              ((sessionDurationHours * 60 * 60 * 1000 : Nat) : Int)) ∧
      List.Pairwise
        (fun b1 b2 => b1.isGap = false → b2.isGap = false →
          ∀ x ∈ b2.entries,
            ((sessionDurationHours * 60 * 60 * 1000 : Nat) : Int) <
              (x.timestamp : Int) - (b1.startTime : Int))
        (identifySessionBlocks now entries sessionDurationHours)) ∧
    ((identifySessionBlocks 32400001
        [demoScenarioE1, demoScenarioE2, demoScenarioE3] 5).map
          (fun b => (b.startTime, b.isGap, b.entries)) =
      [(0, false, [demoScenarioE1, demoScenarioE2]),
        (32400000, false, [demoScenarioE3])]) ∧
    ((identifySessionBlocks 18000001 [demoBoundaryE1, demoBoundaryE2] 5).map
        (fun b => (b.startTime, b.isGap, b.entries)) =
      [(0, false, [demoBoundaryE1, demoBoundaryE2])]) := by
  refine ⟨?_, by decide, by decide⟩
  intro now entries sessionDurationHours
  rw [identifySessionBlocks_def]
  cases hs : sortByTs entries with
  | nil => simp
  | cons e rest =>
    have hsorted : List.Pairwise entryLE (e :: rest) := by
      rw [← hs]; exact sortByTs_sorted entries
    have hstart : ∀ y ∈ [e] ++ rest, floorToHour e.timestamp ≤ y.timestamp := by
      intro y hy
      rcases List.mem_append.mp hy with hy | hy
      · simp only [List.mem_singleton] at hy
        subst hy
        exact floorToHour_le _
      · exact le_trans (floorToHour_le _)
          ((List.pairwise_cons.mp hsorted).1 y hy)
    constructor
    · exact blocksLoop_within (sessionDurationHours * 60 * 60 * 1000) now rest
        (floorToHour e.timestamp) [e] (by simpa using hsorted) (by simp)
        (List.chain'_singleton e) (by simp)
    · have hord := blocksLoop_ordered
        (sessionDurationHours * 60 * 60 * 1000) now (by omega) rest
        (floorToHour e.timestamp) [e] hstart (floorToHour_mod _)
        (by simpa using hsorted) (by simp)
      exact hord.imp (fun hR h1 h2 => (hR h1 h2).2)

/-- Witness for C2 at a concrete input: in the scenario run, the first
block's entries satisfy the within-block chain bound. -/
theorem identifySessionBlocks_split_iff_witness :
    List.Chain'
      (fun x y => (y.timestamp : Int) - (x.timestamp : Int) ≤
        ((5 * 60 * 60 * 1000 : Nat) : Int))
      ((identifySessionBlocks 32400001
          [demoScenarioE1, demoScenarioE2, demoScenarioE3] 5).get
        ⟨0, by decide⟩).entries :=
  ((identifySessionBlocks_split_iff.1 32400001
      [demoScenarioE1, demoScenarioE2, demoScenarioE3] 5).1 _
    (List.get_mem _ _ _) (by decide)).1

/-- `calculateBurnRate` in closed form: `none` exactly on empty, gap, or
non-positive elapsed blocks, the rate formulas otherwise. -/
theorem calculateBurnRate_eq (block : SessionBlock) :
    calculateBurnRate block =
      if block.entries = [] ∨ block.isGap = true ∨
          blockElapsedMinutes block ≤ 0
      then none
      else
        some
          { tokensPerMinute :=
              (getTotalTokens block.tokenCounts : ℚ) /
                blockElapsedMinutes block
            tokensPerMinuteForIndicator :=
              ((block.tokenCounts.inputTokens +
                  block.tokenCounts.outputTokens : Nat) : ℚ) /
                blockElapsedMinutes block
            costPerHour :=
              block.costUSD / blockElapsedMinutes block * 60 } := by
  cases hent : block.entries with
  | nil => simp [calculateBurnRate, blockElapsedMinutes, hent]
  | cons x xs =>
    obtain ⟨l, hl⟩ : ∃ l, (x :: xs).getLast? = some l :=
      ⟨(x :: xs).getLast (by simp), List.getLast?_eq_getLast _ _⟩
    by_cases hgap : block.isGap
    · simp [calculateBurnRate, hgap, hent]
    · by_cases hd :
          ((l.timestamp : ℚ) - (x.timestamp : ℚ)) / (1000 * 60) ≤ 0
      · simp [calculateBurnRate, blockElapsedMinutes, hent, hgap, hl, hd]
      · simp [calculateBurnRate, blockElapsedMinutes, hent, hgap, hl, hd]

/-- Claim C6: `calculateBurnRate` is `null` exactly when the block has no
entries, is a gap block, or the elapsed time between its first and last
entry is non-positive (hence `null` on every single-entry block); otherwise
it divides the total of the four token kinds, the input+output total, and
(scaled to an hour) the cost by the elapsed minutes. -/
theorem calculateBurnRate_spec (block : SessionBlock) :
    (calculateBurnRate block = none ↔
        block.entries = [] ∨ block.isGap = true ∨
          blockElapsedMinutes block ≤ 0) ∧
      (∀ br, calculateBurnRate block = some br →
        br.tokensPerMinute =
            (getTotalTokens block.tokenCounts : ℚ) /
              blockElapsedMinutes block ∧
          br.tokensPerMinuteForIndicator =
            ((block.tokenCounts.inputTokens +
                block.tokenCounts.outputTokens : Nat) : ℚ) /
              blockElapsedMinutes block ∧
          br.costPerHour = block.costUSD / blockElapsedMinutes block * 60) ∧
      ∀ e, block.entries = [e] → calculateBurnRate block = none := by
  rw [calculateBurnRate_eq]
  by_cases h : block.entries = [] ∨ block.isGap = true ∨
      blockElapsedMinutes block ≤ 0
  · rw [if_pos h]
    refine ⟨by simp [h], by simp, fun e he => rfl⟩
  · rw [if_neg h]
    refine ⟨by simp [h], ?_, ?_⟩
    · intro br hbr
      simp only [Option.some.injEq] at hbr
      subst hbr
      exact ⟨rfl, rfl, rfl⟩
    · intro e he
      exfalso
      apply h
      right; right
      simp [blockElapsedMinutes, he]

/-- Demo block with a single entry (zero elapsed duration). -/
def demoSingleBlock : SessionBlock := createBlock 0 [demoGapE1] 0 18000000

/-- Witness for C6 at a concrete input: the single-entry block has no burn
rate. -/
theorem calculateBurnRate_spec_witness :
    calculateBurnRate demoSingleBlock = none :=
  (calculateBurnRate_spec demoSingleBlock).2.2 demoGapE1 rfl

/-- Demo record at minute 0 with 100 tokens. -/
def demoProjE1 : LoadedUsageEntry := ⟨0, 100, 0, 0, 0, none, "m"⟩

/-- Demo record at minute 10 with 100 more tokens. -/
def demoProjE2 : LoadedUsageEntry := ⟨600000, 100, 0, 0, 0, none, "m"⟩

/-- An active block over the two demo records whose nominal end is 5
minutes after `now` = 600000. -/
def demoActiveBlock : SessionBlock :=
  { id := "0", startTime := 0, endTime := 900000,
    actualEndTime := some 600000, isActive := true, isGap := false,
    entries := [demoProjE1, demoProjE2],
    tokenCounts := ⟨200, 0, 0, 0⟩, costUSD := 0, models := ["m"] }

/-- An inactive block (for the null case of the projection). -/
def demoInactiveBlock : SessionBlock :=
  { id := "0", startTime := 0, endTime := 900000,
    actualEndTime := some 600000, isActive := false, isGap := false,
    entries := [demoProjE1, demoProjE2],
    tokenCounts := ⟨200, 0, 0, 0⟩, costUSD := 0, models := ["m"] }

/-- Claim C7: `projectBlockUsage` is `null` unless the block is active,
non-gap and has a burn rate; otherwise `remainingMinutes` is
`max 0 (endTime - now)` in minutes (clamped, never negative), the
projected tokens are the current total plus rate times remaining minutes,
and the projected cost is the block cost plus `costPerHour / 60` times the
remaining minutes (written `costPerHour * (remainingMinutes / 60)` in the
source).  In the 100-tokens-at-minute-0, 100-at-minute-10 scenario with 5
remaining minutes, the burn rate is 20 tokens/min and the projection is
300 tokens. -/
theorem projectBlockUsage_spec :
    (∀ (now : Nat) (block : SessionBlock),
      (block.isActive = false ∨ block.isGap = true ∨
          calculateBurnRate block = none →
        projectBlockUsage now block = none) ∧
      ∀ br, block.isActive = true → block.isGap = false →
        calculateBurnRate block = some br →
        projectBlockUsage now block =
            some
              { totalTokens :=
                  (getTotalTokens block.tokenCounts : ℚ) +
                    br.tokensPerMinute *
                      max 0 (((block.endTime : ℚ) - (now : ℚ)) / (1000 * 60))
                totalCost :=
                  block.costUSD +
                    br.costPerHour *
                      (max 0 (((block.endTime : ℚ) - (now : ℚ)) /
                        (1000 * 60)) / 60)
                remainingMinutes :=
                  max 0 (((block.endTime : ℚ) - (now : ℚ)) / (1000 * 60)) } ∧
          0 ≤ max 0 (((block.endTime : ℚ) - (now : ℚ)) / (1000 * 60))) ∧
    projectBlockUsage 600000 demoActiveBlock = some ⟨300, 0, 5⟩ := by
  constructor
  · intro now block
    constructor
    · intro h
      rcases h with h | h | h
      · simp [projectBlockUsage, h]
      · simp [projectBlockUsage, h]
      · simp [projectBlockUsage, h]
    · intro br hact hgap hbr
      refine ⟨?_, le_max_left 0 _⟩
      simp [projectBlockUsage, hact, hgap, hbr]
  · simp [projectBlockUsage, calculateBurnRate, demoActiveBlock, demoProjE1,
      demoProjE2, getTotalTokens]
    norm_num

/-- Witness for C7 at a concrete input: an inactive block projects to
`null`. -/
theorem projectBlockUsage_spec_witness :
    projectBlockUsage 0 demoInactiveBlock = none :=
  (projectBlockUsage_spec.1 0 demoInactiveBlock).1 (Or.inl rfl)

theorem splitChars_ne_nil (s : List Char) : splitChars s ≠ [] := by
  induction s with
  | nil => simp [splitChars]
  | cons c rest ih =>
    simp only [splitChars]
    by_cases hc : c = '/'
    · simp [hc]
    · rw [if_neg hc]
      cases hr : splitChars rest with
      | nil => simp
      | cons h t => simp

theorem noSlash_splitChars (s : List Char) :
    ∀ p ∈ splitChars s, '/' ∉ p := by
  induction s with
  | nil =>
    intro p hp
    simp only [splitChars, List.mem_singleton] at hp
    subst hp
    simp
  | cons c rest ih =>
    intro p hp
    simp only [splitChars] at hp
    by_cases hc : c = '/'
    · rw [if_pos hc] at hp
      rcases List.mem_cons.mp hp with rfl | hp
      · simp
      · exact ih p hp
    · rw [if_neg hc] at hp
      cases hr : splitChars rest with
      | nil => exact absurd hr (splitChars_ne_nil rest)
      | cons h t =>
        rw [hr] at hp
        rcases List.mem_cons.mp hp with rfl | hp
        · intro hmem
          rcases List.mem_cons.mp hmem with heq | hmem
          · exact hc heq.symm
          · exact ih h (by rw [hr]; simp) hmem
        · exact ih p (by rw [hr]; simp [hp])

theorem splitChars_no_slash (p : List Char) (h : '/' ∉ p) :
    splitChars p = [p] := by
  induction p with
  | nil => rfl
  | cons c rest ih =>
    have hc : ¬c = '/' := fun hc => h (by simp [hc])
    have hrest : '/' ∉ rest := fun hr => h (by simp [hr])
    simp only [splitChars]
    rw [if_neg hc, ih hrest]

theorem splitChars_append_slash (p j : List Char) (h : '/' ∉ p) :
    splitChars (p ++ '/' :: j) = p :: splitChars j := by
  induction p with
  | nil => simp [splitChars]
  | cons c rest ih =>
    have hc : ¬c = '/' := fun hc => h (by simp [hc])
    have hrest : '/' ∉ rest := fun hr => h (by simp [hr])
    show splitChars (c :: (rest ++ '/' :: j)) = (c :: rest) :: splitChars j
    simp only [splitChars]
    rw [if_neg hc, ih hrest]

theorem splitChars_joinChars (parts : List (List Char)) (hne : parts ≠ [])
    (hns : ∀ p ∈ parts, '/' ∉ p) :
    splitChars (joinChars parts) = parts := by
  induction parts with
  | nil => exact absurd rfl hne
  | cons p parts ih =>
    cases parts with
    | nil => exact splitChars_no_slash p (hns p (by simp))
    | cons q qs =>
      have hj : joinChars (p :: q :: qs) = p ++ '/' :: joinChars (q :: qs) :=
        rfl
      rw [hj, splitChars_append_slash p _ (hns p (by simp)),
        ih (by simp) (fun r hr => hns r (by simp [hr]))]

theorem getLastD_append_singleton {α : Type} (l : List α) (a d : α) :
    (l ++ [a]).getLastD d = a := by
  rw [List.getLastD_eq_getLast?, getLast?_append_singleton]
  rfl

/-- The resolver's walk equals the plain deepest-first candidate scan. -/
theorem findLoop_eq_firstMatch (sessions : List ContextSessionData)
    (pathParts : List (List Char)) (hns : ∀ p ∈ pathParts, '/' ∉ p) :
    ∀ i, i ≤ pathParts.length →
      findLoop sessions pathParts i =
        firstMatch sessions ((pathParts.take i).reverse) := by
  intro i
  induction i with
  | zero => intro _; rfl
  | succ i ih =>
    intro hle
    have hi : i < pathParts.length := Nat.lt_of_succ_le hle
    have htake : pathParts.take (i + 1) =
        pathParts.take i ++ [pathParts.get ⟨i, hi⟩] := by
      rw [List.take_succ]
      congr 1
      rw [List.getElem?_eq_getElem hi]
      rfl
    have hne : pathParts.take (i + 1) ≠ [] := by
      rw [htake]
      intro hcontra
      exact absurd (List.append_eq_nil.mp hcontra).2 (by simp)
    have hround :
        splitChars (joinChars (pathParts.take (i + 1))) =
          pathParts.take (i + 1) :=
      splitChars_joinChars _ hne
        (fun p hp => hns p (List.mem_of_mem_take hp))
    simp only [findLoop, hround]
    rw [htake, getLastD_append_singleton, List.reverse_append]
    simp only [List.reverse_singleton, List.singleton_append, firstMatch]
    cases hfind : sessions.find?
        (sessionMatches (normalizeProjName (pathParts.get ⟨i, hi⟩))) with
    | some s => simp [hfind]
    | none =>
      simp only [hfind]
      exact ih (Nat.le_of_lt hi)

/-- The demo context session whose id derives from `my.project`. -/
def demoSession : ContextSessionData := ⟨"my-project-abc", 100, 50, 5⟩

/-- Claim C8: `findContextSessionByPath` walks the path's prefixes from
deepest to root, normalizes each prefix's final component (dots to
hyphens), and returns the first session whose id contains the candidate as
a substring, `null` when no level matches — equivalently, it is the
deepest-first candidate scan over the reversed segment list.  Concretely,
for session `my-project-abc` and path `/home/user/my.project/src`, the
deepest candidate `src` does not match and the normalized `my-project`
one level up does. -/
theorem findContextSessionByPath_spec :
    (∀ (sessions : List ContextSessionData) (currentPath : String),
      findContextSessionByPath sessions currentPath =
        firstMatch sessions ((splitChars currentPath.data).reverse)) ∧
      findContextSessionByPath [demoSession] "/home/user/my.project/src" =
        some demoSession ∧
      hasSubstringChars (normalizeProjName "src".data)
          "my-project-abc".data = false ∧
      normalizeProjName "my.project".data = "my-project".data ∧
      hasSubstringChars (normalizeProjName "my.project".data)
          "my-project-abc".data = true ∧
      findContextSessionByPath [demoSession] "tmp/other" = none := by
  refine ⟨?_, by decide, by decide, by decide, by decide, by decide⟩
  intro sessions currentPath
  unfold findContextSessionByPath
  rw [findLoop_eq_firstMatch sessions (splitChars currentPath.data)
    (noSlash_splitChars _) (splitChars currentPath.data).length (le_refl _)]
  rw [List.take_length]

theorem foldl_contextScanStep_inputTokens :
    ∀ (records : List ContextUsageRecord) (st : ContextScanState),
      (records.foldl contextScanStep st).inputTokens =
        st.inputTokens + (records.map (·.input_tokens)).sum := by
  intro records
  induction records with
  | nil => intro st; simp
  | cons r rs ih =>
    intro st
    rw [List.foldl_cons, ih]
    have hstep : (contextScanStep st r).inputTokens =
        st.inputTokens + r.input_tokens := by
      unfold contextScanStep
      by_cases h : r.cache_read_input_tokens > 0 ∧
          st.mostRecentTimestamp ≤ r.timestamp
      · simp [h]
      · simp [h]
    rw [hstep]
    simp [Nat.add_assoc]

theorem foldl_latestPositiveStep_some :
    ∀ (rs : List ContextUsageRecord) (b : ContextUsageRecord),
      ∃ c, rs.foldl latestPositiveStep (some b) = some c := by
  intro rs
  induction rs with
  | nil => intro b; exact ⟨b, rfl⟩
  | cons r rs ih =>
    intro b
    have hstep : latestPositiveStep (some b) r =
        if r.cache_read_input_tokens > 0 ∧ b.timestamp ≤ r.timestamp
        then some r else some b := rfl
    rw [List.foldl_cons, hstep]
    by_cases h : r.cache_read_input_tokens > 0 ∧ b.timestamp ≤ r.timestamp
    · rw [if_pos h]; exact ih r
    · rw [if_neg h]; exact ih b

theorem foldl_contextScanStep_cacheRead :
    ∀ (records : List ContextUsageRecord) (st : ContextScanState)
      (acc : Option ContextUsageRecord),
      (acc = none → st.mostRecentTimestamp = 0) →
      (∀ b, acc = some b → st.mostRecentTimestamp = b.timestamp ∧
        st.cacheReadTokens = b.cache_read_input_tokens) →
      (records.foldl contextScanStep st).cacheReadTokens =
        (match records.foldl latestPositiveStep acc with
          | some r => r.cache_read_input_tokens
          | none => st.cacheReadTokens) := by
  intro records
  induction records with
  | nil =>
    intro st acc h0 hsome
    cases acc with
    | none => simp
    | some b => simp [(hsome b rfl).2]
  | cons r rs ih =>
    intro st acc h0 hsome
    rw [List.foldl_cons, List.foldl_cons]
    cases acc with
    | none =>
      have hm : st.mostRecentTimestamp = 0 := h0 rfl
      by_cases hpos : r.cache_read_input_tokens > 0
      · have hguard : r.cache_read_input_tokens > 0 ∧
            st.mostRecentTimestamp ≤ r.timestamp := ⟨hpos, by omega⟩
        have hstep : contextScanStep st r =
            { cacheReadTokens := r.cache_read_input_tokens
              inputTokens := st.inputTokens + r.input_tokens
              mostRecentTimestamp := r.timestamp } := by
          unfold contextScanStep
          rw [if_pos hguard]
        have hspec : latestPositiveStep none r = some r := by
          simp [latestPositiveStep, hpos]
        rw [hstep, hspec]
        obtain ⟨c, hc⟩ := foldl_latestPositiveStep_some rs r
        rw [hc]
        have hrec := ih
          { cacheReadTokens := r.cache_read_input_tokens
            inputTokens := st.inputTokens + r.input_tokens
            mostRecentTimestamp := r.timestamp } (some r) (by simp)
          (fun b hb => by cases hb; exact ⟨rfl, rfl⟩)
        rw [hc] at hrec
        exact hrec
      · have hguard : ¬(r.cache_read_input_tokens > 0 ∧
            st.mostRecentTimestamp ≤ r.timestamp) := fun hh => hpos hh.1
        have hstep : contextScanStep st r =
            { st with inputTokens := st.inputTokens + r.input_tokens } := by
          unfold contextScanStep
          rw [if_neg hguard]
        have hspec : latestPositiveStep none r = none := by
          simp [latestPositiveStep, hpos]
        rw [hstep, hspec]
        exact ih { st with inputTokens := st.inputTokens + r.input_tokens }
          none (fun _ => hm) (by simp)
    | some b =>
      obtain ⟨hmb, hcb⟩ := hsome b rfl
      by_cases hcond : r.cache_read_input_tokens > 0 ∧
          b.timestamp ≤ r.timestamp
      · have hguard : r.cache_read_input_tokens > 0 ∧
            st.mostRecentTimestamp ≤ r.timestamp :=
          ⟨hcond.1, by rw [hmb]; exact hcond.2⟩
        have hstep : contextScanStep st r =
            { cacheReadTokens := r.cache_read_input_tokens
              inputTokens := st.inputTokens + r.input_tokens
              mostRecentTimestamp := r.timestamp } := by
          unfold contextScanStep
          rw [if_pos hguard]
        have hspec : latestPositiveStep (some b) r = some r := by
          simp [latestPositiveStep, hcond]
        rw [hstep, hspec]
        obtain ⟨c, hc⟩ := foldl_latestPositiveStep_some rs r
        rw [hc]
        have hrec := ih
          { cacheReadTokens := r.cache_read_input_tokens
            inputTokens := st.inputTokens + r.input_tokens
            mostRecentTimestamp := r.timestamp } (some r) (by simp)
          (fun b' hb' => by cases hb'; exact ⟨rfl, rfl⟩)
        rw [hc] at hrec
        exact hrec
      · have hguard : ¬(r.cache_read_input_tokens > 0 ∧
            st.mostRecentTimestamp ≤ r.timestamp) := by
          rw [hmb]; exact hcond
        have hstep : contextScanStep st r =
            { st with inputTokens := st.inputTokens + r.input_tokens } := by
          unfold contextScanStep
          rw [if_neg hguard]
        have hspec : latestPositiveStep (some b) r = some b := by
          simp [latestPositiveStep, hcond]
        rw [hstep, hspec]
        exact ih { st with inputTokens := st.inputTokens + r.input_tokens }
          (some b) (by simp) (fun b' hb' => by cases hb'; exact ⟨hmb, hcb⟩)

/-- Soundness of the spec-level selection: when it returns a record, that
record comes from the scanned list (or the seed), has a positive
`cache_read` count, and its timestamp dominates every positive record. -/
theorem latestPositiveStep_facts :
    ∀ (records : List ContextUsageRecord) (acc : Option ContextUsageRecord),
      match records.foldl latestPositiveStep acc with
      | none => acc = none ∧ ∀ x ∈ records, ¬(0 < x.cache_read_input_tokens)
      | some r =>
          (acc = some r ∨ (r ∈ records ∧ 0 < r.cache_read_input_tokens)) ∧
            (∀ x ∈ records, 0 < x.cache_read_input_tokens →
              x.timestamp ≤ r.timestamp) ∧
            ∀ b, acc = some b → b.timestamp ≤ r.timestamp := by
  intro records
  induction records with
  | nil =>
    intro acc
    cases acc with
    | none => exact ⟨rfl, by simp⟩
    | some b =>
      refine ⟨Or.inl rfl, by simp, ?_⟩
      intro b' hb'
      cases hb'
      exact le_refl _
  | cons r rs ih =>
    intro acc
    rw [List.foldl_cons]
    cases acc with
    | none =>
      by_cases hpos : 0 < r.cache_read_input_tokens
      · have hstep : latestPositiveStep none r = some r := by
          simp [latestPositiveStep, hpos]
        rw [hstep]
        have hrec := ih (some r)
        cases hfold : rs.foldl latestPositiveStep (some r) with
        | none =>
          rw [hfold] at hrec
          exact absurd hrec.1 (by simp)
        | some rf =>
          rw [hfold] at hrec
          obtain ⟨hmem, hall, hmono⟩ := hrec
          refine ⟨?_, ?_, by simp⟩
          · rcases hmem with heq | ⟨hm, hp⟩
            · cases Option.some.inj heq
              exact Or.inr ⟨List.mem_cons_self _ _, hpos⟩
            · exact Or.inr ⟨List.mem_cons_of_mem _ hm, hp⟩
          · intro x hx hxp
            rcases List.mem_cons.mp hx with rfl | hx
            · exact hmono x rfl
            · exact hall x hx hxp
      · have hstep : latestPositiveStep none r = none := by
          simp [latestPositiveStep, hpos]
        rw [hstep]
        have hrec := ih none
        cases hfold : rs.foldl latestPositiveStep none with
        | none =>
          rw [hfold] at hrec
          refine ⟨rfl, ?_⟩
          intro x hx
          rcases List.mem_cons.mp hx with rfl | hx
          · exact hpos
          · exact hrec.2 x hx
        | some rf =>
          rw [hfold] at hrec
          obtain ⟨hmem, hall, hmono⟩ := hrec
          refine ⟨?_, ?_, by simp⟩
          · rcases hmem with heq | ⟨hm, hp⟩
            · exact absurd heq (by simp)
            · exact Or.inr ⟨List.mem_cons_of_mem _ hm, hp⟩
          · intro x hx hxp
            rcases List.mem_cons.mp hx with rfl | hx
            · exact absurd hxp hpos
            · exact hall x hx hxp
    | some b =>
      by_cases hcond : r.cache_read_input_tokens > 0 ∧
          b.timestamp ≤ r.timestamp
      · have hstep : latestPositiveStep (some b) r = some r := by
          simp [latestPositiveStep, hcond]
        rw [hstep]
        have hrec := ih (some r)
        cases hfold : rs.foldl latestPositiveStep (some r) with
        | none =>
          rw [hfold] at hrec
          exact absurd hrec.1 (by simp)
        | some rf =>
          rw [hfold] at hrec
          obtain ⟨hmem, hall, hmono⟩ := hrec
          have hrle : r.timestamp ≤ rf.timestamp := hmono r rfl
          refine ⟨?_, ?_, ?_⟩
          · rcases hmem with heq | ⟨hm, hp⟩
            · cases Option.some.inj heq
              exact Or.inr ⟨List.mem_cons_self _ _, hcond.1⟩
            · exact Or.inr ⟨List.mem_cons_of_mem _ hm, hp⟩
          · intro x hx hxp
            rcases List.mem_cons.mp hx with rfl | hx
            · exact hrle
            · exact hall x hx hxp
          · intro b' hb'
            cases Option.some.inj hb'
            exact le_trans hcond.2 hrle
      · have hstep : latestPositiveStep (some b) r = some b := by
          simp only [latestPositiveStep]
          rw [if_neg hcond]
        rw [hstep]
        have hrec := ih (some b)
        cases hfold : rs.foldl latestPositiveStep (some b) with
        | none =>
          rw [hfold] at hrec
          exact absurd hrec.1 (by simp)
        | some rf =>
          rw [hfold] at hrec
          obtain ⟨hmem, hall, hmono⟩ := hrec
          have hble : b.timestamp ≤ rf.timestamp := hmono b rfl
          refine ⟨?_, ?_, ?_⟩
          · rcases hmem with heq | ⟨hm, hp⟩
            · exact Or.inl heq
            · exact Or.inr ⟨List.mem_cons_of_mem _ hm, hp⟩
          · intro x hx hxp
            rcases List.mem_cons.mp hx with rfl | hx
            · have hlt : x.timestamp < b.timestamp :=
                Nat.lt_of_not_le (fun hh => hcond ⟨hxp, hh⟩)
              exact le_trans (le_of_lt hlt) hble
            · exact hall x hx hxp
          · intro b' hb'
            cases Option.some.inj hb'
            exact hble

/-- Demo context record: timestamp 1, `cache_read` 5, `input` 7. -/
def demoCtx1 : ContextUsageRecord := ⟨1, 5, 7⟩

/-- Demo context record: timestamp 2, `cache_read` 3, `input` 4. -/
def demoCtx2 : ContextUsageRecord := ⟨2, 3, 4⟩

/-- Claim C9: the scan of `getContextSessionData` computes `inputTokens` as
a plain sum of `input_tokens`, and `cacheReadTokens` as a last-write-wins
selection: the `cache_read` value of the record with the greatest timestamp
among positive-`cache_read` records, later-scanned records winning ties —
not a sum and not a maximum of the values (the demo records yield 3, where
the sum would be 8 and the value maximum 5). -/
theorem getContextSessionData_spec :
    (∀ records : List ContextUsageRecord,
      (getContextSessionData records).inputTokens =
          (records.map (·.input_tokens)).sum ∧
        (getContextSessionData records).cacheReadTokens =
          (match latestPositiveCacheRead records with
            | some r => r.cache_read_input_tokens
            | none => 0) ∧
        ∀ r, latestPositiveCacheRead records = some r →
          r ∈ records ∧ 0 < r.cache_read_input_tokens ∧
            ∀ x ∈ records, 0 < x.cache_read_input_tokens →
              x.timestamp ≤ r.timestamp) ∧
      (getContextSessionData [demoCtx1, demoCtx2]).cacheReadTokens = 3 ∧
      (getContextSessionData [demoCtx1, demoCtx2]).inputTokens = 11 := by
  refine ⟨?_, by decide, by decide⟩
  intro records
  refine ⟨?_, ?_, ?_⟩
  · simpa using foldl_contextScanStep_inputTokens records ⟨0, 0, 0⟩
  · exact foldl_contextScanStep_cacheRead records ⟨0, 0, 0⟩ none
      (fun _ => rfl) (by simp)
  · intro r hr
    have hfacts := latestPositiveStep_facts records none
    unfold latestPositiveCacheRead at hr
    rw [hr] at hfacts
    obtain ⟨hmem, hall, _⟩ := hfacts
    rcases hmem with heq | ⟨hm, hp⟩
    · exact absurd heq (by simp)
    · exact ⟨hm, hp, hall⟩

/-- Witness for C9 at a concrete input: the selected record is the
positive-`cache_read` record with the greatest timestamp. -/
theorem getContextSessionData_spec_witness :
    demoCtx2 ∈ [demoCtx1, demoCtx2] ∧
      0 < demoCtx2.cache_read_input_tokens ∧
      ∀ x ∈ [demoCtx1, demoCtx2], 0 < x.cache_read_input_tokens →
        x.timestamp ≤ demoCtx2.timestamp :=
  (getContextSessionData_spec.1 [demoCtx1, demoCtx2]).2.2 demoCtx2
    (by decide)
